import Mathlib

/-!
Verification of the Imenik scraper core against its specification.

The TypeScript source is shallowly embedded: pure string helpers become Lean
functions on `String`, the page extractor becomes a function on the list of raw
records extracted from a rendered page, and the stateful orchestrator becomes
explicit state passing over a status map, a cache map, and a trace of published
progress records.  JavaScript's per-character case conversion is modelled for
the characters that actually occur in the scraper's data and rule tables
(ASCII letters plus the Croatian diacritics č ć đ š ž), on which JavaScript's
`toUpperCase`/`toLowerCase` agree with the simple one-to-one mapping used here.
-/

namespace Imenik

/-- Per-character model of JavaScript `toLowerCase` (ASCII + Croatian diacritics). -/
def jsToLowerChar (c : Char) : Char :=
  if 'A' ≤ c ∧ c ≤ 'Z' then Char.ofNat (c.toNat + 32)
  else if c = 'Č' then 'č'
  else if c = 'Ć' then 'ć'
  else if c = 'Đ' then 'đ'
  else if c = 'Š' then 'š'
  else if c = 'Ž' then 'ž'
  else c

/-- Per-character model of JavaScript `toUpperCase` (ASCII + Croatian diacritics). -/
def jsToUpperChar (c : Char) : Char :=
  if 'a' ≤ c ∧ c ≤ 'z' then Char.ofNat (c.toNat - 32)
  else if c = 'č' then 'Č'
  else if c = 'ć' then 'Ć'
  else if c = 'đ' then 'Đ'
  else if c = 'š' then 'Š'
  else if c = 'ž' then 'Ž'
  else c

/-- Model of JavaScript `String.prototype.toLowerCase`. -/
def jsToLowerStr (s : String) : String :=
  String.mk (s.data.map jsToLowerChar)

/-- `word.charAt(0).toUpperCase() + word.slice(1).toLowerCase()`, the
capitalisation step shared by `parseFullName` and `parseStreet`
(src/index.ts line 563; the `word.length === 0` guard collapses to the
empty-list case). -/
def capWord (w : String) : String :=
  match w.data with
  | [] => ""
  | c :: cs => String.mk (jsToUpperChar c :: cs.map jsToLowerChar)

/-- Model of JavaScript `str.split(" ")` on the character list: split at every
single space, keeping empty segments (`"".split(" ")` is `[""]`). -/
def splitSpaceAux : List Char → List Char → List (List Char)
  | [], acc => [acc.reverse]
  | c :: cs, acc =>
      if c = ' ' then acc.reverse :: splitSpaceAux cs []
      else splitSpaceAux cs (c :: acc)

/-- Model of JavaScript `str.split(" ")`. -/
def splitWords (s : String) : List String :=
  (splitSpaceAux s.data []).map String.mk

/-- Model of JavaScript `arr.join(" ")`. -/
def joinWords : List String → String
  | [] => ""
  | [w] => w
  | w :: ws => w ++ " " ++ joinWords ws

/-- `parseFullName` (src/index.ts lines 558-566): split on single spaces,
capitalise the first letter of each word, lowercase the rest, rejoin. -/
def parseFullName (fullName : String) : String :=
  joinWords ((splitWords fullName).map capWord)

/-- `parseCity` (src/index.ts lines 569-572): delegates to `parseFullName`. -/
def parseCity (city : String) : String :=
  parseFullName city

/-- The fixed preposition/conjunction table of `parseStreet`
(src/index.ts lines 588-601). -/
def lowerCaseWords : List String :=
  ["i", "u", "na", "kod", "do", "od", "za", "iz", "s", "sa", "k", "ka"]

/-- The fixed directional-word table of `parseStreet`
(src/index.ts lines 604-613). -/
def directionalWords : List String :=
  ["sjever", "jug", "istok", "zapad", "sjeverni", "južni", "istočni", "zapadni"]

/-- Model of JavaScript `w.endsWith("-")`. -/
def hyphenEnd (w : String) : Bool :=
  match w.data.getLast? with
  | some c => c = '-'
  | none => false

/-- The per-token branch of `parseStreet` (src/index.ts lines 583-633):
empty token stays empty; the first token, or a token after a hyphen-ending
token, is capitalised; a lowercased member of the preposition or directional
tables is emitted fully lowercase; everything else is capitalised.
`hyphenEnd` models `words[index - 1]?.endsWith("-")`. -/
def parseStreetWord (words : List String) (index : Nat) (word : String) : String :=
  if word.length = 0 then ""
  else if index = 0 ∨ (0 < index ∧ hyphenEnd (words.getD (index - 1) "")) then
    capWord word
  else if jsToLowerStr word ∈ lowerCaseWords then
    jsToLowerStr word
  else if jsToLowerStr word ∈ directionalWords then
    jsToLowerStr word
  else
    capWord word

/-- `parseStreet` (src/index.ts lines 575-634): empty input maps to empty
output (the JavaScript `if (!street)` falsy guard); otherwise split on single
spaces, map each token with `parseStreetWord`, rejoin with single spaces. -/
def parseStreet (street : String) : String :=
  if street = "" then ""
  else
    let words := splitWords street
    joinWords (words.enum.map fun p => parseStreetWord words p.1 p.2)

/-- The character class of the JavaScript regex `\s` (whitespace). -/
def isJsWhitespace (c : Char) : Bool :=
  c.toNat ∈ [9, 10, 11, 12, 13, 32, 0xa0, 0x1680, 0x2028, 0x2029, 0x202f,
      0x205f, 0x3000, 0xfeff]
    || (0x2000 ≤ c.toNat && c.toNat ≤ 0x200a)

theorem dropWhile_length_le (p : α → Bool) (l : List α) :
    (l.dropWhile p).length ≤ l.length := by
  induction l with
  | nil => simp [List.dropWhile]
  | cons a l ih =>
      by_cases h : p a
      · simpa [List.dropWhile, h] using Nat.le_succ_of_le ih
      · simp [List.dropWhile, h]

/-- Fuel-indexed scanner for `replace(/\s+/g, "")`: on meeting a whitespace
character it discards the whole maximal whitespace run, otherwise it keeps the
character.  The fuel (an upper bound on the list length) only makes the
recursion structural; it is never exhausted when `l.length ≤ fuel`. -/
def removeWsRunsFuel : Nat → List Char → List Char
  | 0, _ => []
  | _ + 1, [] => []
  | fuel + 1, c :: cs =>
      if isJsWhitespace c then removeWsRunsFuel fuel (cs.dropWhile isJsWhitespace)
      else c :: removeWsRunsFuel fuel cs

/-- `number.replace(/\s+/g, "")`: every maximal run of whitespace characters is
replaced by the empty string (src/index.ts lines 637-639, modelled on the
character list of the string). -/
def removeWsRuns (l : List Char) : List Char :=
  removeWsRunsFuel l.length l

/-- `cleanPhoneNumber` (src/index.ts lines 637-639). -/
def cleanPhoneNumber (number : String) : String :=
  String.mk (removeWsRuns number.data)

/-- One contact record (src/types.ts). -/
structure Entry where
  telephoneNumber : String
  street : String
  city : String
  fullName : String
deriving DecidableEq, Repr

/-- The `.map` step of `scrapePage` (src/unnamed/part_000 lines 232-239):
normalise name, city and street; keep the telephone number as scraped. -/
def normalizeEntry (e : Entry) : Entry :=
  { e with
    fullName := parseFullName e.fullName
    city := parseCity e.city
    street := parseStreet e.street }

/-- Model of JavaScript `s.startsWith(p)` at the character level. -/
def jsStartsWith (p s : String) : Bool :=
  p.data.isPrefixOf s.data

/-- Pure core of `scrapePage` (src/unnamed/part_000 lines 195-244): the
rendered page is represented by the list of raw records its `$$eval` pass
extracts (each field already trimmed-or-empty); the function normalises each
record and keeps exactly those whose cleaned phone number starts with "09". -/
def scrapePage (rawEntries : List Entry) : List Entry :=
  (rawEntries.map normalizeEntry).filter fun e =>
    jsStartsWith "09" (cleanPhoneNumber e.telephoneNumber)

/-- Spec-side restatement of the street rule, written from the specification's
words (spec §4.1 `normalizeStreet`) for comparison with `parseStreet`: the
empty string maps to the empty string; otherwise, splitting on single spaces,
a first token or a token whose immediately preceding token ends with a hyphen
is capitalise-first-lowercase-rest; otherwise a token whose lowercase form is
in the fixed preposition/conjunction set or the fixed directional set is
emitted fully lowercased; all other tokens are capitalise-first-lowercase-rest;
tokens are rejoined with single spaces. -/
def normalizeStreetSpec (street : String) : String :=
  if street = "" then ""
  else
    let tokens := splitWords street
    joinWords (tokens.enum.map fun p =>
      if p.1 = 0 ∨ hyphenEnd (tokens.getD (p.1 - 1) "") then capWord p.2
      else if jsToLowerStr p.2 ∈ lowerCaseWords ∨ jsToLowerStr p.2 ∈ directionalWords then
        jsToLowerStr p.2
      else capWord p.2)

/-- Fuel-indexed slicing loop; the fuel (an upper bound on the list length)
only makes the recursion structural and is never exhausted when
`l.length ≤ fuel`. -/
def splitIntoBatchesFuel : Nat → List α → Nat → List (List α)
  | 0, _, _ => []
  | _ + 1, [], _ => []
  | fuel + 1, a :: l, b =>
      if b = 0 then []
      else (a :: l).take b :: splitIntoBatchesFuel fuel ((a :: l).drop b) b

/-- `splitIntoBatches` (src/index.ts lines 543-549): slices of `batchSize`
consecutive elements, the final slice possibly shorter.  The JavaScript loop
`for (i = 0; i < len; i += batchSize)` never terminates when `batchSize = 0`
and the array is non-empty; the model returns `[]` there, and every theorem
about batching assumes a positive batch size. -/
def splitIntoBatches (l : List α) (b : Nat) : List (List α) :=
  splitIntoBatchesFuel l.length l b

/-- Lifecycle stage of one search term (src/types.ts `NameStatus`). -/
inductive NameState
  | pending
  | processing
  | completed
deriving DecidableEq, Repr

/-- One term's progress record (src/types.ts `NameStatus` values). -/
structure NS where
  currentPage : Nat
  totalPages : Nat
  status : NameState
deriving DecidableEq, Repr

/-- The mutable `nameStatus` map, as a partial map from term to record. -/
def StatusMap : Type := String → Option NS

/-- Write one term's record (`nameStatus[name] = v`). -/
def setStatus (σ : StatusMap) (n : String) (v : NS) : StatusMap :=
  fun m => if m = n then some v else σ m

/-- The in-memory cache (src/types.ts `Cache`): term → previously collected
entries, absent key = cache miss. -/
def CacheMap : Type := String → Option (List Entry)

/-- Modelled from the spec: `getEntriesFromCache` lives in the repository's
`utils` module, which is not under src/; per spec §3 the Cache is "a mapping
from search term (string, exact match, case-sensitive) to the ordered sequence
of Entries previously collected for it", so the lookup is a plain exact-key
read.  A present key — even with an empty list — is a hit (JavaScript arrays
are truthy). -/
def getEntriesFromCache (name : String) (cache : CacheMap) : Option (List Entry) :=
  cache name

/-- The cache test of the orchestrator's filter (src/unnamed/part_000 lines
331-345): with caching enabled, a term is a hit iff its key is present. -/
def cacheHit (disableCache : Bool) (cache : CacheMap) (n : String) : Bool :=
  !disableCache && (getEntriesFromCache n cache).isSome

/-- `namesToProcess` (src/unnamed/part_000 lines 331-345): the input names
that survive the cache filter, in input order. -/
def namesToProcess (names : List String) (disableCache : Bool) (cache : CacheMap) :
    List String :=
  names.filter fun n => !(cacheHit disableCache cache n)

/-- The cache seeding loop (src/unnamed/part_000 lines 350-358): with caching
enabled, every input name's cached entries (if any) are pushed into the
accumulator first, in input order. -/
def seedEntries (names : List String) (disableCache : Bool) (cache : CacheMap) :
    List Entry :=
  if disableCache then []
  else names.flatMap fun n => (getEntriesFromCache n cache).getD []

/-- Environment of one Search Session (`scrapeByName`), abstracting the
browser: `linkCount` is the number of deduplicated pagination links discovered
on the first result page, `result` the entries the session accumulates across
all pages on success, and `fail` is `none` for a successful run or `some k`
when a navigation/extraction error is thrown after the session has published
`k` progress updates (the first update happens synchronously before any
network operation, so the effective count is at least 1). -/
structure SessionEnv where
  linkCount : Nat
  result : List Entry
  fail : Option Nat
deriving Repr

/-- `totalPages` after pagination discovery (src/unnamed/part_000 lines
290-293): corrected to `linkCount + 1` only when at least one link exists. -/
def sessionTotalPages (tp0 linkCount : Nat) : Nat :=
  if linkCount = 0 then tp0 else linkCount + 1

/-- The last value assigned to `currentPage` by a successful session: 1 when
there is no pagination, otherwise `linkCount + 1` from the final loop pass. -/
def sessionLastPage (linkCount : Nat) : Nat :=
  if linkCount = 0 then 1 else linkCount + 1

/-- The progress records a fully successful `scrapeByName` publishes, in
order (src/unnamed/part_000 lines 246-314): processing at page 1; the
corrected total after discovering pagination (only if any links exist); page
`i + 2` for the i-th pagination link; completed at the end. -/
def sessionPubs (tp0 linkCount : Nat) : List NS :=
  ⟨1, tp0, .processing⟩ ::
    ((if linkCount = 0 then [] else [⟨1, linkCount + 1, .processing⟩]) ++
      ((List.range linkCount).map fun i =>
        ⟨i + 2, sessionTotalPages tp0 linkCount, .processing⟩) ++
      [⟨sessionLastPage linkCount, sessionTotalPages tp0 linkCount, .completed⟩])

/-- Result of one session run: the returned entries (`none` when the session
threw), the progress records it published, and the status map after its last
write. -/
structure SessionResult where
  result : Option (List Entry)
  pubs : List NS
  σ : StatusMap

/-- Pure model of `scrapeByName` (src/unnamed/part_000 lines 246-318): read or
create the term's record, publish the processing/pagination/completed updates,
and on failure stop after the environment's publish count, leaving the last
published record as the term's state.  Every status write is immediately
followed by a display refresh, so the trace of writes is the trace of
published updates. -/
def runSession (n : String) (e : SessionEnv) (σ : StatusMap) : SessionResult :=
  let ns0 := (σ n).getD ⟨0, 10, .pending⟩
  let full := sessionPubs ns0.totalPages e.linkCount
  match e.fail with
  | none =>
      { result := some e.result
        pubs := full
        σ := setStatus σ n
          ⟨sessionLastPage e.linkCount, sessionTotalPages ns0.totalPages e.linkCount,
            .completed⟩ }
  | some k =>
      let pubs := full.take (max 1 k)
      { result := none
        pubs := pubs
        σ := setStatus σ n (pubs.getLast?.getD ns0) }

/-- The entries one term contributes to the batch results: its session's
entries on success, the empty list substituted by the per-term catch on
failure (src/unnamed/part_000 lines 378-395). -/
def termEntries (e : SessionEnv) : List Entry :=
  match e.fail with
  | none => e.result
  | some _ => []

/-- Orchestrator state threaded through the batch loop: status map, cache map,
trace of published progress records, output accumulator, and the snapshots
passed to `saveResults` after each batch. -/
structure OrchState where
  σ : StatusMap
  cacheM : CacheMap
  trace : List NS
  entries : List Entry
  saves : List (List Entry)

/-- One term inside a batch (src/unnamed/part_000 lines 378-395): run the
session; on success update the cache when caching is enabled and the result is
non-empty; on a thrown error force the term's status to completed, publish,
and substitute the empty list. -/
def runTerm (disableCache : Bool) (env : String → SessionEnv) (s : OrchState)
    (n : String) : OrchState × List Entry :=
  let r := runSession n (env n) s.σ
  match r.result with
  | some es =>
      ({ s with
          σ := r.σ
          cacheM :=
            if !disableCache && !es.isEmpty then
              fun m => if m = n then some es else s.cacheM m
            else s.cacheM
          trace := s.trace ++ r.pubs }, es)
  | none =>
      match r.σ n with
      | some ns =>
          ({ s with
              σ := setStatus r.σ n { ns with status := .completed }
              trace := s.trace ++ r.pubs ++ [{ ns with status := .completed }] }, [])
      | none =>
          ({ s with σ := r.σ, trace := s.trace ++ r.pubs }, [])

/-- `Promise.all` over one batch, sequentialised: the sessions of a batch only
interleave at suspension points and touch disjoint per-term state, so the
in-order composition is observationally equivalent; results are collected in
batch order, as `Promise.all` does. -/
def runTermsAcc (disableCache : Bool) (env : String → SessionEnv) (s : OrchState) :
    List String → OrchState × List Entry
  | [] => (s, [])
  | n :: rest =>
      let p := runTerm disableCache env s n
      let q := runTermsAcc disableCache env p.1 rest
      (q.1, p.2 ++ q.2)

/-- One pass of the batch loop (src/unnamed/part_000 lines 371-404): run every
term of the batch, append the flattened batch results to the accumulator, then
save the accumulator (`saveResults`). -/
def runBatch (disableCache : Bool) (env : String → SessionEnv) (s : OrchState)
    (batch : List String) : OrchState :=
  let p := runTermsAcc disableCache env s batch
  { p.1 with
      entries := p.1.entries ++ p.2
      saves := p.1.saves ++ [p.1.entries ++ p.2] }

/-- What one run of the orchestrator produces and does: the returned entries,
the final status map, the cache map after all per-term updates, the terms for
which a Search Session was actually launched (in launch order), the trace of
all published progress records, and the successive `saveResults` snapshots.
`saveResults` itself lives in the repository's `utils` module, which is not
under src/; modelled from the spec (§4.4, §6): it persists the running output
accumulator to the output file, rewriting it in full, and is invoked only
after each batch. -/
structure OrchResult where
  entries : List Entry
  σ : StatusMap
  cacheOut : CacheMap
  launched : List String
  trace : List NS
  saves : List (List Entry)

/-- The initial status map (src/unnamed/part_000 lines 324-328): every input
name is set to `{currentPage: 0, totalPages: 10, status: pending}`. -/
def initStatus (names : List String) : StatusMap :=
  names.foldl (fun σ n => setStatus σ n ⟨0, 10, .pending⟩) fun _ => none

/-- The cache filter's side effect (src/unnamed/part_000 lines 331-345): a
cache hit marks the term completed with `currentPage = totalPages` and
publishes the update. -/
def markCached (disableCache : Bool) (cache : CacheMap) (p : StatusMap × List NS)
    (n : String) : StatusMap × List NS :=
  if cacheHit disableCache cache n then
    match p.1 n with
    | some ns =>
        (setStatus p.1 n ⟨ns.totalPages, ns.totalPages, .completed⟩,
          p.2 ++ [⟨ns.totalPages, ns.totalPages, .completed⟩])
    | none => p
  else p

/-- Pure model of `scrapeByNames` (src/unnamed/part_000 lines 320-407, with
`CONFIG.BATCH_SIZE` abstracted as the parameter `B`; config is not under src/,
and both the spec and the monolithic revision fix it at 10): initialise every
term to pending, mark cache hits completed and exclude them from batching,
seed the accumulator with cached entries, then process the cache-miss terms in
batches of `B`, strictly in order, isolating per-term failures. -/
def scrapeByNames (names : List String) (disableCache : Bool) (cache : CacheMap)
    (env : String → SessionEnv) (B : Nat) : OrchResult :=
  let σ0 := initStatus names
  let trace0 := names.map fun _ => (⟨0, 10, .pending⟩ : NS)
  let p1 := names.foldl (markCached disableCache cache) (σ0, trace0)
  let toProcess := namesToProcess names disableCache cache
  let batches := splitIntoBatches toProcess B
  let s0 : OrchState :=
    { σ := p1.1
      cacheM := cache
      trace := p1.2
      entries := seedEntries names disableCache cache
      saves := [] }
  let sF := batches.foldl (runBatch disableCache env) s0
  { entries := sF.entries
    σ := sF.σ
    cacheOut := sF.cacheM
    launched := batches.flatten
    trace := sF.trace
    saves := sF.saves }

theorem filter_dropWhile (p : α → Bool) (l : List α) :
    (l.dropWhile p).filter (fun c => !p c) = l.filter fun c => !p c := by
  induction l with
  | nil => rfl
  | cons a l ih =>
      by_cases h : p a
      · simp [List.dropWhile, List.filter, h, ih]
      · simp [List.dropWhile, List.filter, h]

theorem removeWsRunsFuel_eq_filter :
    ∀ (fuel : Nat) (l : List Char), l.length ≤ fuel →
      removeWsRunsFuel fuel l = l.filter fun c => !isJsWhitespace c := by
  intro fuel
  induction fuel with
  | zero =>
      intro l hl
      rw [Nat.le_zero, List.length_eq_zero] at hl
      subst hl
      rfl
  | succ fuel ih =>
      intro l hl
      match l with
      | [] => rfl
      | c :: cs =>
          by_cases h : isJsWhitespace c
          · have hlen : (cs.dropWhile isJsWhitespace).length ≤ fuel :=
              le_trans (dropWhile_length_le _ _) (Nat.succ_le_succ_iff.mp hl)
            have e1 : removeWsRunsFuel (fuel + 1) (c :: cs) =
                removeWsRunsFuel fuel (cs.dropWhile isJsWhitespace) := by
              simp [removeWsRunsFuel, h]
            have e2 : (c :: cs).filter (fun c => !isJsWhitespace c) =
                cs.filter (fun c => !isJsWhitespace c) := by
              simp [List.filter_cons, h]
            rw [e1, e2, ih _ hlen, filter_dropWhile]
          · have e1 : removeWsRunsFuel (fuel + 1) (c :: cs) =
                c :: removeWsRunsFuel fuel cs := by
              simp [removeWsRunsFuel, h]
            have e2 : (c :: cs).filter (fun c => !isJsWhitespace c) =
                c :: cs.filter (fun c => !isJsWhitespace c) := by
              simp [List.filter_cons, h]
            rw [e1, e2, ih _ (Nat.succ_le_succ_iff.mp hl)]

theorem removeWsRuns_eq_filter (l : List Char) :
    removeWsRuns l = l.filter fun c => !isJsWhitespace c :=
  removeWsRunsFuel_eq_filter l.length l le_rfl

/-- C9: cleanPhoneNumber removes exactly the whitespace characters, leaving
every non-whitespace character unchanged in order (so each whitespace run
collapses to nothing), and in particular maps "091 234 5678" to
"0912345678". -/
theorem cleanPhoneNumber_spec (s : String) :
    (cleanPhoneNumber s).data = s.data.filter (fun c => !isJsWhitespace c)
    ∧ cleanPhoneNumber "091 234 5678" = "0912345678" :=
  ⟨removeWsRuns_eq_filter s.data, by decide⟩

/-- C8: parseCity is extensionally equal to parseFullName — every city string
is normalised by exactly the name rule. -/
theorem parseCity_eq_parseFullName : ∀ s : String, parseCity s = parseFullName s :=
  fun _ => rfl

/-- C1: an entry is in the page extractor's output iff it is the normalisation
of a raw record on the page whose phone number, with all whitespace removed,
starts with "09"; records without that prefix are dropped and records with it
are retained. -/
theorem scrapePage_retains_09_iff (raw : List Entry) (e : Entry) :
    e ∈ scrapePage raw ↔
      ∃ r ∈ raw, e = normalizeEntry r ∧
        jsStartsWith "09" (cleanPhoneNumber r.telephoneNumber) := by
  simp only [scrapePage, List.mem_filter, List.mem_map]
  constructor
  · rintro ⟨⟨r, hr, rfl⟩, hp⟩
    exact ⟨r, hr, rfl, hp⟩
  · rintro ⟨r, hr, rfl, hp⟩
    exact ⟨⟨r, hr, rfl⟩, hp⟩

/-- C6: every entry the page extractor outputs stores the raw scraped
telephone text unchanged; only the name, city and street fields are
normalised. -/
theorem scrapePage_phone_unchanged (raw : List Entry) (e : Entry)
    (he : e ∈ scrapePage raw) :
    ∃ r ∈ raw, e.telephoneNumber = r.telephoneNumber
      ∧ e.fullName = parseFullName r.fullName
      ∧ e.city = parseCity r.city
      ∧ e.street = parseStreet r.street := by
  simp only [scrapePage, List.mem_filter, List.mem_map] at he
  obtain ⟨⟨r, hr, rfl⟩, -⟩ := he
  exact ⟨r, hr, rfl, rfl, rfl, rfl⟩

theorem scrapePage_phone_unchanged_witness :
    ∃ r ∈ [(⟨"091 111 222", "vukovarska ulica", "zagreb", "ivan horvat"⟩ : Entry)],
      (normalizeEntry ⟨"091 111 222", "vukovarska ulica", "zagreb", "ivan horvat"⟩).telephoneNumber
          = r.telephoneNumber
      ∧ (normalizeEntry ⟨"091 111 222", "vukovarska ulica", "zagreb", "ivan horvat"⟩).fullName
          = parseFullName r.fullName
      ∧ (normalizeEntry ⟨"091 111 222", "vukovarska ulica", "zagreb", "ivan horvat"⟩).city
          = parseCity r.city
      ∧ (normalizeEntry ⟨"091 111 222", "vukovarska ulica", "zagreb", "ivan horvat"⟩).street
          = parseStreet r.street :=
  scrapePage_phone_unchanged _ _ (by decide)

theorem parseStreetWord_eq_specBranch (ws : List String) (i : Nat) (w : String) :
    parseStreetWord ws i w =
      (if i = 0 ∨ hyphenEnd (ws.getD (i - 1) "") then capWord w
       else if jsToLowerStr w ∈ lowerCaseWords ∨ jsToLowerStr w ∈ directionalWords then
         jsToLowerStr w
       else capWord w) := by
  by_cases hw : w.length = 0
  · have hd : w.data = [] := List.length_eq_zero.mp hw
    have hcap : capWord w = "" := by simp [capWord, hd]
    have hlow : jsToLowerStr w = "" := by simp [jsToLowerStr, hd]
    have h1 : jsToLowerStr w ∉ lowerCaseWords := by rw [hlow]; decide
    have h2 : jsToLowerStr w ∉ directionalWords := by rw [hlow]; decide
    simp [parseStreetWord, hw, hcap, h1, h2]
  · have hcond : (i = 0 ∨ (0 < i ∧ hyphenEnd (ws.getD (i - 1) ""))) ↔
        (i = 0 ∨ hyphenEnd (ws.getD (i - 1) "")) := by
      constructor
      · rintro (h | ⟨-, h⟩)
        · exact Or.inl h
        · exact Or.inr h
      · rintro (h | h)
        · exact Or.inl h
        · rcases Nat.eq_zero_or_pos i with hi | hi
          · exact Or.inl hi
          · exact Or.inr ⟨hi, h⟩
    simp only [parseStreetWord, hw, if_false]
    by_cases hc : i = 0 ∨ hyphenEnd (ws.getD (i - 1) "")
    · rw [if_pos (hcond.mpr hc), if_pos hc]
    · rw [if_neg (fun h => hc (hcond.mp h)), if_neg hc]
      by_cases hl : jsToLowerStr w ∈ lowerCaseWords
      · simp [hl]
      · by_cases hdw : jsToLowerStr w ∈ directionalWords
        · simp [hl, hdw]
        · simp [hl, hdw]

/-- C7: parseStreet agrees with the specification's token-wise street rule on
every input, and in particular maps "" to "" and "ulica i Grada" to
"Ulica i Grada". -/
theorem parseStreet_spec_conformance (s : String) :
    parseStreet s = normalizeStreetSpec s
    ∧ parseStreet "" = ""
    ∧ parseStreet "ulica i Grada" = "Ulica i Grada" := by
  refine ⟨?_, by decide, by decide⟩
  by_cases hs : s = ""
  · simp [parseStreet, normalizeStreetSpec, hs]
  · unfold parseStreet normalizeStreetSpec
    rw [if_neg hs, if_neg hs]
    dsimp only
    congr 1
    exact List.map_congr_left fun (p : Nat × String) _ =>
      parseStreetWord_eq_specBranch _ p.1 p.2

theorem splitIntoBatchesFuel_congr :
    ∀ (f1 f2 : Nat) (l : List α) (b : Nat), l.length ≤ f1 → l.length ≤ f2 →
      splitIntoBatchesFuel f1 l b = splitIntoBatchesFuel f2 l b := by
  intro f1
  induction f1 with
  | zero =>
      intro f2 l b h1 _
      rw [Nat.le_zero, List.length_eq_zero] at h1
      subst h1
      cases f2 <;> rfl
  | succ f1 ih =>
      intro f2 l b h1 h2
      match l with
      | [] => cases f2 <;> rfl
      | a :: l =>
          match f2 with
          | 0 => exact absurd h2 (by simp)
          | f2 + 1 =>
              by_cases hb : b = 0
              · simp [splitIntoBatchesFuel, hb]
              · simp only [splitIntoBatchesFuel, hb, if_neg]
                have hd1 : ((a :: l).drop b).length ≤ f1 := by
                  rw [List.length_drop]
                  simp only [List.length_cons] at h1 ⊢
                  omega
                have hd2 : ((a :: l).drop b).length ≤ f2 := by
                  rw [List.length_drop]
                  simp only [List.length_cons] at h2 ⊢
                  omega
                rw [ih f2 _ b hd1 hd2]

theorem splitIntoBatches_nil (b : Nat) : splitIntoBatches ([] : List α) b = [] :=
  rfl

theorem splitIntoBatches_cons (a : α) (l : List α) (b : Nat) (hb : b ≠ 0) :
    splitIntoBatches (a :: l) b =
      (a :: l).take b :: splitIntoBatches ((a :: l).drop b) b := by
  show splitIntoBatchesFuel (a :: l).length (a :: l) b = _
  rw [List.length_cons, splitIntoBatchesFuel, if_neg hb]
  unfold splitIntoBatches
  rw [splitIntoBatchesFuel_congr l.length ((a :: l).drop b).length ((a :: l).drop b) b
    (by rw [List.length_drop, List.length_cons]; omega) le_rfl]

theorem splitIntoBatches_zero (l : List α) : splitIntoBatches l 0 = [] := by
  cases l with
  | nil => exact splitIntoBatches_nil 0
  | cons a l =>
      show splitIntoBatchesFuel (a :: l).length (a :: l) 0 = []
      rw [List.length_cons, splitIntoBatchesFuel]
      simp

theorem splitIntoBatches_flatten :
    ∀ (l : List α) (b : Nat), 0 < b → (splitIntoBatches l b).flatten = l
  | [], b, _ => by rw [splitIntoBatches_nil b]; rfl
  | a :: l, b, hb => by
      rw [splitIntoBatches_cons a l b (Nat.pos_iff_ne_zero.mp hb)]
      rw [List.flatten_cons, splitIntoBatches_flatten ((a :: l).drop b) b hb,
        List.take_append_drop]
termination_by l => l.length
decreasing_by
  simp only [List.length_drop, List.length_cons]
  omega

theorem splitIntoBatches_mem_flatten (l : List α) (b : Nat) (x : α)
    (hx : x ∈ (splitIntoBatches l b).flatten) : x ∈ l := by
  rcases Nat.eq_zero_or_pos b with hb | hb
  · subst hb
    rw [splitIntoBatches_zero] at hx
    simp at hx
  · rwa [splitIntoBatches_flatten l b hb] at hx

theorem splitIntoBatches_length_le :
    ∀ (l : List α) (b : Nat), 0 < b → ∀ c ∈ splitIntoBatches l b, c.length ≤ b
  | [], b, _ => by intro c hc; rw [splitIntoBatches_nil b] at hc; simp at hc
  | a :: l, b, hb => by
      rw [splitIntoBatches_cons a l b (Nat.pos_iff_ne_zero.mp hb)]
      intro c hc
      rcases List.mem_cons.mp hc with rfl | hc
      · rw [List.length_take]
        exact Nat.min_le_left _ _
      · exact splitIntoBatches_length_le ((a :: l).drop b) b hb c hc
termination_by l => l.length
decreasing_by
  simp only [List.length_drop, List.length_cons]
  omega

theorem splitIntoBatches_dropLast :
    ∀ (l : List α) (b : Nat), 0 < b → ∀ c ∈ (splitIntoBatches l b).dropLast, c.length = b
  | [], b, _ => by intro c hc; rw [splitIntoBatches_nil b] at hc; simp at hc
  | a :: l, b, hb => by
      rw [splitIntoBatches_cons a l b (Nat.pos_iff_ne_zero.mp hb)]
      cases h : splitIntoBatches ((a :: l).drop b) b with
      | nil => simp
      | cons x xs =>
          intro c hc
          rw [List.dropLast_cons₂] at hc
          rcases List.mem_cons.mp hc with rfl | hc
          · have hne : (a :: l).drop b ≠ [] := by
              intro hnil
              rw [hnil, splitIntoBatches_nil] at h
              exact List.noConfusion h
            have hlen : b ≤ (a :: l).length := by
              by_contra hlt
              exact hne (List.drop_eq_nil_of_le (Nat.le_of_not_le hlt))
            rw [List.length_take]
            exact Nat.min_eq_left hlen
          · rw [← h] at hc
            exact splitIntoBatches_dropLast ((a :: l).drop b) b hb c hc
termination_by l => l.length
decreasing_by
  simp only [List.length_drop, List.length_cons]
  omega

/-- Fuel-indexed form of the batch-size sequence (fuel bounds the first
argument and only makes the recursion structural). -/
def batchSizesFuel : Nat → Nat → Nat → List Nat
  | 0, _, _ => []
  | _ + 1, 0, _ => []
  | fuel + 1, n + 1, b =>
      if b = 0 then []
      else min b (n + 1) :: batchSizesFuel fuel (n + 1 - b) b

/-- The batch-size sequence determined by input length and batch size alone. -/
def batchSizes (n b : Nat) : List Nat :=
  batchSizesFuel n n b

theorem batchSizesFuel_congr :
    ∀ (f1 f2 n b : Nat), n ≤ f1 → n ≤ f2 →
      batchSizesFuel f1 n b = batchSizesFuel f2 n b := by
  intro f1
  induction f1 with
  | zero =>
      intro f2 n b h1 _
      rw [Nat.le_zero] at h1
      subst h1
      cases f2 <;> rfl
  | succ f1 ih =>
      intro f2 n b h1 h2
      match n with
      | 0 => cases f2 <;> rfl
      | n + 1 =>
          match f2 with
          | 0 => exact absurd h2 (by omega)
          | f2 + 1 =>
              by_cases hb : b = 0
              · simp [batchSizesFuel, hb]
              · simp only [batchSizesFuel, hb, if_neg]
                rw [ih f2 (n + 1 - b) b (by omega) (by omega)]

theorem batchSizes_zero_n (b : Nat) : batchSizes 0 b = [] := rfl

theorem batchSizes_succ (n b : Nat) (hb : b ≠ 0) :
    batchSizes (n + 1) b = min b (n + 1) :: batchSizes (n + 1 - b) b := by
  show batchSizesFuel (n + 1) (n + 1) b = _
  rw [batchSizesFuel, if_neg hb]
  unfold batchSizes
  rw [batchSizesFuel_congr n (n + 1 - b) (n + 1 - b) b (by omega) le_rfl]

theorem batchSizes_succ_zero (n : Nat) : batchSizes (n + 1) 0 = [] := by
  show batchSizesFuel (n + 1) (n + 1) 0 = []
  rw [batchSizesFuel]
  simp

theorem splitIntoBatches_map_length :
    ∀ (l : List α) (b : Nat), (splitIntoBatches l b).map List.length = batchSizes l.length b
  | [], b => by rw [splitIntoBatches_nil b, List.length_nil, batchSizes_zero_n]; rfl
  | a :: l, b => by
      by_cases hb : b = 0
      · subst hb
        rw [splitIntoBatches_zero, List.length_cons, batchSizes_succ_zero]
        rfl
      · rw [splitIntoBatches_cons a l b hb, List.map_cons, List.length_take,
          splitIntoBatches_map_length ((a :: l).drop b) b, List.length_drop]
        rw [List.length_cons, batchSizes_succ _ _ hb]
termination_by l => l.length
decreasing_by
  simp only [List.length_drop, List.length_cons]
  omega

theorem setStatus_self (σ : StatusMap) (n : String) (v : NS) :
    setStatus σ n v n = some v := by
  simp [setStatus]

theorem setStatus_other (σ : StatusMap) (n : String) (v : NS) (m : String)
    (h : m ≠ n) : setStatus σ n v m = σ m := by
  simp [setStatus, h]

theorem foldl_setStatus_const (names : List String) (v : NS) (σ : StatusMap)
    (m : String) :
    (names.foldl (fun σ n => setStatus σ n v) σ) m =
      if m ∈ names then some v else σ m := by
  induction names generalizing σ with
  | nil => simp
  | cons a rest ih =>
      rw [List.foldl_cons, ih]
      by_cases hm : m ∈ rest
      · simp [hm]
      · by_cases hma : m = a
        · subst hma
          simp [hm, setStatus_self]
        · simp [hm, hma, setStatus_other _ _ _ _ hma]

theorem initStatus_apply (names : List String) (m : String) :
    initStatus names m = if m ∈ names then some ⟨0, 10, .pending⟩ else none :=
  foldl_setStatus_const names _ _ m

/-- Shape of the status map between initialisation and batch processing:
every record is still the initial pending one or a cache-hit completion. -/
def StatusInit (σ : StatusMap) : Prop :=
  ∀ m, σ m = none ∨ σ m = some ⟨0, 10, .pending⟩ ∨ σ m = some ⟨10, 10, .completed⟩

theorem statusInit_initStatus (names : List String) : StatusInit (initStatus names) := by
  intro m
  rw [initStatus_apply]
  by_cases hm : m ∈ names
  · simp [hm]
  · simp [hm]

/-- The status-map component of `markCached`. -/
def markCachedσ (disableCache : Bool) (cache : CacheMap) (σ : StatusMap)
    (n : String) : StatusMap :=
  if cacheHit disableCache cache n then
    match σ n with
    | some ns => setStatus σ n ⟨ns.totalPages, ns.totalPages, .completed⟩
    | none => σ
  else σ

theorem markCached_fst (disableCache : Bool) (cache : CacheMap)
    (p : StatusMap × List NS) (n : String) :
    (markCached disableCache cache p n).1 = markCachedσ disableCache cache p.1 n := by
  unfold markCached markCachedσ
  by_cases h : cacheHit disableCache cache n
  · simp only [h, if_true]
    cases p.1 n <;> rfl
  · simp [h]

theorem foldl_markCached_fst (disableCache : Bool) (cache : CacheMap)
    (names : List String) (p : StatusMap × List NS) :
    (names.foldl (markCached disableCache cache) p).1 =
      names.foldl (markCachedσ disableCache cache) p.1 := by
  induction names generalizing p with
  | nil => rfl
  | cons a rest ih =>
      rw [List.foldl_cons, List.foldl_cons, ih, markCached_fst]

theorem markCachedσ_other (disableCache : Bool) (cache : CacheMap) (σ : StatusMap)
    (n m : String) (h : m ≠ n) :
    markCachedσ disableCache cache σ n m = σ m := by
  unfold markCachedσ
  by_cases hh : cacheHit disableCache cache n
  · simp only [hh, if_true]
    cases σ n with
    | none => rfl
    | some ns => exact setStatus_other _ _ _ _ h
  · simp [hh]

theorem markCachedσ_statusInit (disableCache : Bool) (cache : CacheMap)
    (σ : StatusMap) (n : String) (h : StatusInit σ) :
    StatusInit (markCachedσ disableCache cache σ n) := by
  intro m
  unfold markCachedσ
  by_cases hh : cacheHit disableCache cache n
  · simp only [hh, if_true]
    cases hσn : σ n with
    | none => exact h m
    | some ns =>
        dsimp only
        have htp : ns.totalPages = 10 := by
          rcases h n with h0 | h0 | h0
          · rw [hσn] at h0; exact Option.noConfusion h0
          · rw [hσn] at h0
            cases Option.some.inj h0
            rfl
          · rw [hσn] at h0
            cases Option.some.inj h0
            rfl
        by_cases hmn : m = n
        · subst hmn
          rw [setStatus_self, htp]
          right; right; rfl
        · rw [setStatus_other _ _ _ _ hmn]
          exact h m
  · simp only [hh, if_false]
    exact h m

theorem markCachedσ_stable (disableCache : Bool) (cache : CacheMap) (σ : StatusMap)
    (n t : String) (h : σ t = some ⟨10, 10, .completed⟩) :
    markCachedσ disableCache cache σ n t = some ⟨10, 10, .completed⟩ := by
  unfold markCachedσ
  by_cases hh : cacheHit disableCache cache n
  · simp only [hh, if_true]
    cases hσn : σ n with
    | none => exact h
    | some ns =>
        dsimp only
        by_cases hmn : t = n
        · subst hmn
          rw [hσn] at h
          cases Option.some.inj h
          rw [setStatus_self]
        · rw [setStatus_other _ _ _ _ hmn]
          exact h
  · simp only [hh, if_false]
    exact h

theorem foldl_markCachedσ_stable (disableCache : Bool) (cache : CacheMap)
    (names : List String) (σ : StatusMap) (t : String)
    (h : σ t = some ⟨10, 10, .completed⟩) :
    (names.foldl (markCachedσ disableCache cache) σ) t = some ⟨10, 10, .completed⟩ := by
  induction names generalizing σ with
  | nil => exact h
  | cons a rest ih =>
      rw [List.foldl_cons]
      exact ih _ (markCachedσ_stable _ _ _ _ _ h)

theorem foldl_markCachedσ_hit (disableCache : Bool) (cache : CacheMap)
    (names : List String) (σ : StatusMap) (t : String) (hσ : StatusInit σ)
    (hhit : cacheHit disableCache cache t = true) (hmem : t ∈ names)
    (hsome : σ t = some ⟨0, 10, .pending⟩ ∨ σ t = some ⟨10, 10, .completed⟩) :
    (names.foldl (markCachedσ disableCache cache) σ) t = some ⟨10, 10, .completed⟩ := by
  induction names generalizing σ with
  | nil => exact absurd hmem (List.not_mem_nil t)
  | cons a rest ih =>
      rw [List.foldl_cons]
      by_cases hat : a = t
      · subst hat
        have hstep : markCachedσ disableCache cache σ a a = some ⟨10, 10, .completed⟩ := by
          unfold markCachedσ
          rcases hsome with h0 | h0 <;>
            simp [hhit, h0, setStatus_self]
        exact foldl_markCachedσ_stable _ _ _ _ _ hstep
      · have hta : t ≠ a := fun h => hat h.symm
        have hpres : markCachedσ disableCache cache σ a t = σ t :=
          markCachedσ_other _ _ _ _ _ hta
        have hmem' : t ∈ rest := by
          rcases List.mem_cons.mp hmem with h0 | h0
          · exact absurd h0.symm hat
          · exact h0
        exact ih _ (markCachedσ_statusInit _ _ _ _ hσ) hmem' (hpres ▸ hsome)

theorem runSession_result_none (n : String) (e : SessionEnv) (σ : StatusMap)
    (h : e.fail = none) : (runSession n e σ).result = some e.result := by
  unfold runSession
  rw [h]

theorem runSession_result_some (n : String) (e : SessionEnv) (σ : StatusMap)
    (k : Nat) (h : e.fail = some k) : (runSession n e σ).result = none := by
  unfold runSession
  rw [h]

theorem runSession_sigma (n : String) (e : SessionEnv) (σ : StatusMap) :
    ∃ v, (runSession n e σ).σ = setStatus σ n v := by
  unfold runSession
  cases e.fail <;> exact ⟨_, rfl⟩

theorem runSession_σ_other (n : String) (e : SessionEnv) (σ : StatusMap)
    (m : String) (h : m ≠ n) : (runSession n e σ).σ m = σ m := by
  obtain ⟨v, hv⟩ := runSession_sigma n e σ
  rw [hv, setStatus_other _ _ _ _ h]

theorem runSession_σ_self (n : String) (e : SessionEnv) (σ : StatusMap) :
    ∃ v, (runSession n e σ).σ n = some v := by
  obtain ⟨v, hv⟩ := runSession_sigma n e σ
  exact ⟨v, by rw [hv, setStatus_self]⟩

theorem runSession_σ_self_success (n : String) (e : SessionEnv) (σ : StatusMap)
    (h : e.fail = none) :
    (runSession n e σ).σ n =
      some ⟨sessionLastPage e.linkCount,
        sessionTotalPages ((σ n).getD ⟨0, 10, .pending⟩).totalPages e.linkCount,
        .completed⟩ := by
  unfold runSession
  rw [h]
  exact setStatus_self _ _ _

/-- A term whose record exists and is marked completed. -/
def Completed (σ : StatusMap) (m : String) : Prop :=
  ∃ ns, σ m = some ns ∧ ns.status = .completed

theorem runTerm_snd (dc : Bool) (env : String → SessionEnv) (s : OrchState)
    (n : String) : (runTerm dc env s n).2 = termEntries (env n) := by
  unfold runTerm
  dsimp only
  cases hf : (env n).fail with
  | none =>
      rw [runSession_result_none n (env n) s.σ hf]
      unfold termEntries
      rw [hf]
  | some k =>
      rw [runSession_result_some n (env n) s.σ k hf]
      obtain ⟨v, hv⟩ := runSession_σ_self n (env n) s.σ
      rw [hv]
      unfold termEntries
      rw [hf]

theorem runTerm_entries_saves (dc : Bool) (env : String → SessionEnv)
    (s : OrchState) (n : String) :
    (runTerm dc env s n).1.entries = s.entries
      ∧ (runTerm dc env s n).1.saves = s.saves := by
  unfold runTerm
  dsimp only
  cases hf : (env n).fail with
  | none =>
      rw [runSession_result_none n (env n) s.σ hf]
      exact ⟨rfl, rfl⟩
  | some k =>
      rw [runSession_result_some n (env n) s.σ k hf]
      obtain ⟨v, hv⟩ := runSession_σ_self n (env n) s.σ
      rw [hv]
      exact ⟨rfl, rfl⟩

theorem runTerm_σ_other (dc : Bool) (env : String → SessionEnv) (s : OrchState)
    (n m : String) (h : m ≠ n) : (runTerm dc env s n).1.σ m = s.σ m := by
  unfold runTerm
  dsimp only
  cases hf : (env n).fail with
  | none =>
      rw [runSession_result_none n (env n) s.σ hf]
      exact runSession_σ_other n (env n) s.σ m h
  | some k =>
      rw [runSession_result_some n (env n) s.σ k hf]
      obtain ⟨v, hv⟩ := runSession_σ_self n (env n) s.σ
      rw [hv]
      dsimp only
      rw [setStatus_other _ _ _ _ h]
      exact runSession_σ_other n (env n) s.σ m h

theorem runTerm_completed_self (dc : Bool) (env : String → SessionEnv)
    (s : OrchState) (n : String) : Completed (runTerm dc env s n).1.σ n := by
  unfold runTerm
  dsimp only
  cases hf : (env n).fail with
  | none =>
      rw [runSession_result_none n (env n) s.σ hf]
      exact ⟨_, runSession_σ_self_success n (env n) s.σ hf, rfl⟩
  | some k =>
      rw [runSession_result_some n (env n) s.σ k hf]
      obtain ⟨v, hv⟩ := runSession_σ_self n (env n) s.σ
      rw [hv]
      exact ⟨_, setStatus_self _ _ _, rfl⟩

theorem runTerm_completed_mono (dc : Bool) (env : String → SessionEnv)
    (s : OrchState) (n m : String) (h : Completed s.σ m) :
    Completed (runTerm dc env s n).1.σ m := by
  by_cases hmn : m = n
  · subst hmn
    exact runTerm_completed_self dc env s m
  · obtain ⟨ns, hns, hcns⟩ := h
    exact ⟨ns, by rw [runTerm_σ_other dc env s n m hmn]; exact hns, hcns⟩

theorem runTerm_cache_isSome (dc : Bool) (env : String → SessionEnv)
    (s : OrchState) (n m : String) (h : (s.cacheM m).isSome) :
    ((runTerm dc env s n).1.cacheM m).isSome := by
  unfold runTerm
  dsimp only
  cases hf : (env n).fail with
  | none =>
      rw [runSession_result_none n (env n) s.σ hf]
      dsimp only
      by_cases hc : (!dc && !(env n).result.isEmpty) = true
      · rw [if_pos hc]
        by_cases hmn : m = n
        · simp [hmn]
        · simp [hmn]
          exact h
      · rw [if_neg hc]
        exact h
  | some k =>
      rw [runSession_result_some n (env n) s.σ k hf]
      obtain ⟨v, hv⟩ := runSession_σ_self n (env n) s.σ
      rw [hv]
      exact h

theorem runTermsAcc_snd (dc : Bool) (env : String → SessionEnv) :
    ∀ (l : List String) (s : OrchState),
      (runTermsAcc dc env s l).2 = (l.map fun n => termEntries (env n)).flatten := by
  intro l
  induction l with
  | nil => intro s; rfl
  | cons n rest ih =>
      intro s
      show ((runTermsAcc dc env (runTerm dc env s n).1 rest).1,
        (runTerm dc env s n).2 ++ (runTermsAcc dc env (runTerm dc env s n).1 rest).2).2 = _
      rw [List.map_cons, List.flatten_cons]
      dsimp only
      rw [runTerm_snd, ih]

theorem runTermsAcc_entries_saves (dc : Bool) (env : String → SessionEnv) :
    ∀ (l : List String) (s : OrchState),
      (runTermsAcc dc env s l).1.entries = s.entries
        ∧ (runTermsAcc dc env s l).1.saves = s.saves := by
  intro l
  induction l with
  | nil => intro s; exact ⟨rfl, rfl⟩
  | cons n rest ih =>
      intro s
      have h1 := runTerm_entries_saves dc env s n
      have h2 := ih (runTerm dc env s n).1
      exact ⟨h2.1.trans h1.1, h2.2.trans h1.2⟩

theorem runTermsAcc_σ_other (dc : Bool) (env : String → SessionEnv) :
    ∀ (l : List String) (s : OrchState) (m : String), m ∉ l →
      (runTermsAcc dc env s l).1.σ m = s.σ m := by
  intro l
  induction l with
  | nil => intro s m _; rfl
  | cons n rest ih =>
      intro s m hm
      have hmn : m ≠ n := fun h => hm (h ▸ List.mem_cons_self n rest)
      have hmr : m ∉ rest := fun h => hm (List.mem_cons_of_mem n h)
      show (runTermsAcc dc env (runTerm dc env s n).1 rest).1.σ m = s.σ m
      rw [ih _ _ hmr, runTerm_σ_other dc env s n m hmn]

theorem runTermsAcc_completed_mono (dc : Bool) (env : String → SessionEnv) :
    ∀ (l : List String) (s : OrchState) (m : String), Completed s.σ m →
      Completed (runTermsAcc dc env s l).1.σ m := by
  intro l
  induction l with
  | nil => intro s m h; exact h
  | cons n rest ih =>
      intro s m h
      exact ih _ _ (runTerm_completed_mono dc env s n m h)

theorem runTermsAcc_completed_mem (dc : Bool) (env : String → SessionEnv) :
    ∀ (l : List String) (s : OrchState) (n : String), n ∈ l →
      Completed (runTermsAcc dc env s l).1.σ n := by
  intro l
  induction l with
  | nil => intro s n h; exact absurd h (List.not_mem_nil n)
  | cons a rest ih =>
      intro s n h
      rcases List.mem_cons.mp h with rfl | h
      · exact runTermsAcc_completed_mono dc env rest _ n
          (runTerm_completed_self dc env s n)
      · exact ih _ _ h

theorem runTermsAcc_cache_isSome (dc : Bool) (env : String → SessionEnv) :
    ∀ (l : List String) (s : OrchState) (m : String), (s.cacheM m).isSome →
      ((runTermsAcc dc env s l).1.cacheM m).isSome := by
  intro l
  induction l with
  | nil => intro s m h; exact h
  | cons n rest ih =>
      intro s m h
      exact ih _ _ (runTerm_cache_isSome dc env s n m h)

theorem runBatch_entries (dc : Bool) (env : String → SessionEnv) (s : OrchState)
    (batch : List String) :
    (runBatch dc env s batch).entries =
      s.entries ++ (batch.map fun n => termEntries (env n)).flatten := by
  unfold runBatch
  dsimp only
  rw [(runTermsAcc_entries_saves dc env batch s).1, runTermsAcc_snd]

theorem runBatch_σ_other (dc : Bool) (env : String → SessionEnv) (s : OrchState)
    (batch : List String) (m : String) (hm : m ∉ batch) :
    (runBatch dc env s batch).σ m = s.σ m := by
  unfold runBatch
  dsimp only
  rw [runTermsAcc_σ_other dc env batch s m hm]

theorem runBatch_completed_mono (dc : Bool) (env : String → SessionEnv)
    (s : OrchState) (batch : List String) (m : String) (h : Completed s.σ m) :
    Completed (runBatch dc env s batch).σ m :=
  runTermsAcc_completed_mono dc env batch s m h

theorem runBatch_completed_mem (dc : Bool) (env : String → SessionEnv)
    (s : OrchState) (batch : List String) (n : String) (h : n ∈ batch) :
    Completed (runBatch dc env s batch).σ n :=
  runTermsAcc_completed_mem dc env batch s n h

theorem runBatch_cache_isSome (dc : Bool) (env : String → SessionEnv)
    (s : OrchState) (batch : List String) (m : String)
    (h : (s.cacheM m).isSome) : ((runBatch dc env s batch).cacheM m).isSome :=
  runTermsAcc_cache_isSome dc env batch s m h

theorem foldBatches_entries (dc : Bool) (env : String → SessionEnv) :
    ∀ (batches : List (List String)) (s : OrchState),
      (batches.foldl (runBatch dc env) s).entries =
        s.entries ++ (batches.flatten.map fun n => termEntries (env n)).flatten := by
  intro batches
  induction batches with
  | nil => intro s; simp
  | cons b bs ih =>
      intro s
      rw [List.foldl_cons, ih, runBatch_entries, List.flatten_cons, List.map_append,
        List.flatten_append, List.append_assoc]

theorem foldBatches_σ_other (dc : Bool) (env : String → SessionEnv) :
    ∀ (batches : List (List String)) (s : OrchState) (m : String),
      m ∉ batches.flatten → (batches.foldl (runBatch dc env) s).σ m = s.σ m := by
  intro batches
  induction batches with
  | nil => intro s m _; rfl
  | cons b bs ih =>
      intro s m hm
      rw [List.flatten_cons] at hm
      rw [List.foldl_cons, ih _ _ fun h => hm (List.mem_append_right _ h),
        runBatch_σ_other dc env s b m fun h => hm (List.mem_append_left _ h)]

theorem foldBatches_completed_mono (dc : Bool) (env : String → SessionEnv) :
    ∀ (batches : List (List String)) (s : OrchState) (m : String),
      Completed s.σ m → Completed (batches.foldl (runBatch dc env) s).σ m := by
  intro batches
  induction batches with
  | nil => intro s m h; exact h
  | cons b bs ih =>
      intro s m h
      exact ih _ _ (runBatch_completed_mono dc env s b m h)

theorem foldBatches_completed_mem (dc : Bool) (env : String → SessionEnv) :
    ∀ (batches : List (List String)) (s : OrchState) (n : String),
      n ∈ batches.flatten → Completed (batches.foldl (runBatch dc env) s).σ n := by
  intro batches
  induction batches with
  | nil => intro s n h; simp at h
  | cons b bs ih =>
      intro s n h
      rw [List.flatten_cons] at h
      rcases List.mem_append.mp h with h | h
      · exact foldBatches_completed_mono dc env bs _ n
          (runBatch_completed_mem dc env s b n h)
      · exact ih _ _ h

theorem foldBatches_cache_isSome (dc : Bool) (env : String → SessionEnv) :
    ∀ (batches : List (List String)) (s : OrchState) (m : String),
      (s.cacheM m).isSome → ((batches.foldl (runBatch dc env) s).cacheM m).isSome := by
  intro batches
  induction batches with
  | nil => intro s m h; exact h
  | cons b bs ih =>
      intro s m h
      exact ih _ _ (runBatch_cache_isSome dc env s b m h)

theorem scrapeByNames_saves_nil (names : List String) (dc : Bool) (cache : CacheMap)
    (env : String → SessionEnv) (B : Nat)
    (h : namesToProcess names dc cache = []) :
    (scrapeByNames names dc cache env B).saves = [] := by
  unfold scrapeByNames
  dsimp only
  rw [h, splitIntoBatches_nil]
  rfl

theorem scrapeByNames_launched (names : List String) (dc : Bool) (cache : CacheMap)
    (env : String → SessionEnv) (B : Nat) :
    (scrapeByNames names dc cache env B).launched =
      (splitIntoBatches (namesToProcess names dc cache) B).flatten := rfl

theorem scrapeByNames_entries_eq (names : List String) (dc : Bool) (cache : CacheMap)
    (env : String → SessionEnv) (B : Nat) :
    (scrapeByNames names dc cache env B).entries =
      seedEntries names dc cache ++
        (((splitIntoBatches (namesToProcess names dc cache) B).flatten).map
          fun n => termEntries (env n)).flatten := by
  unfold scrapeByNames
  dsimp only
  rw [foldBatches_entries]

theorem cacheHit_not_launched (names : List String) (dc : Bool) (cache : CacheMap)
    (env : String → SessionEnv) (B : Nat) (t : String)
    (hhit : cacheHit dc cache t = true) :
    t ∉ (scrapeByNames names dc cache env B).launched := by
  intro hmem
  rw [scrapeByNames_launched] at hmem
  have h2 := splitIntoBatches_mem_flatten _ _ _ hmem
  have h3 := (List.mem_filter.mp h2).2
  rw [hhit] at h3
  simp at h3

theorem scrapeByNames_σ_cache_hit (names : List String) (dc : Bool) (cache : CacheMap)
    (env : String → SessionEnv) (B : Nat) (t : String)
    (ht : t ∈ names) (hhit : cacheHit dc cache t = true) :
    (scrapeByNames names dc cache env B).σ t = some ⟨10, 10, .completed⟩ := by
  have hnot : t ∉ ((splitIntoBatches (namesToProcess names dc cache) B)).flatten := by
    intro hmem
    have h2 := splitIntoBatches_mem_flatten _ _ _ hmem
    have h3 := (List.mem_filter.mp h2).2
    rw [hhit] at h3
    simp at h3
  unfold scrapeByNames
  dsimp only
  rw [foldBatches_σ_other dc env _ _ t hnot]
  dsimp only
  rw [foldl_markCached_fst]
  exact foldl_markCachedσ_hit dc cache names (initStatus names) t
    (statusInit_initStatus names) hhit ht
    (Or.inl (by rw [initStatus_apply]; simp [ht]))

/-- C2: for every input name list and every term present in the cache, with
caching enabled the orchestrator launches no Search Session for that term,
marks its progress completed with currentPage = totalPages, and the returned
entries are exactly the cache seed (which contributes the term's N cached
entries, in order) followed by the scraped terms' contributions. -/
theorem scrapeByNames_cache_hit (names : List String) (t : String) (es : List Entry)
    (cache : CacheMap) (env : String → SessionEnv) (B : Nat)
    (ht : t ∈ names) (hc : cache t = some es) :
    t ∉ (scrapeByNames names false cache env B).launched
    ∧ (∃ ns, (scrapeByNames names false cache env B).σ t = some ns
        ∧ ns.status = .completed ∧ ns.currentPage = ns.totalPages)
    ∧ (scrapeByNames names false cache env B).entries =
        (names.flatMap fun n => (getEntriesFromCache n cache).getD []) ++
          (((scrapeByNames names false cache env B).launched).map
            fun n => termEntries (env n)).flatten
    ∧ es.Sublist (scrapeByNames names false cache env B).entries := by
  have hhit : cacheHit false cache t = true := by
    simp [cacheHit, getEntriesFromCache, hc]
  have hseed : seedEntries names false cache =
      names.flatMap fun n => (getEntriesFromCache n cache).getD [] := by
    simp [seedEntries]
  refine ⟨cacheHit_not_launched names false cache env B t hhit,
    ⟨⟨10, 10, .completed⟩,
      scrapeByNames_σ_cache_hit names false cache env B t ht hhit, rfl, rfl⟩,
    ?_, ?_⟩
  · rw [scrapeByNames_entries_eq, scrapeByNames_launched, hseed]
  · rw [scrapeByNames_entries_eq, hseed]
    refine List.Sublist.trans ?_ (List.sublist_append_left _ _)
    obtain ⟨l1, l2, rfl⟩ := List.append_of_mem ht
    rw [List.flatMap_append, List.flatMap_cons]
    have hft : (getEntriesFromCache t cache).getD [] = es := by
      simp [getEntriesFromCache, hc]
    rw [hft]
    exact List.Sublist.trans (List.sublist_append_left es _)
      (List.sublist_append_right _ _)

theorem scrapeByNames_cache_hit_witness :
    "Ivan" ∉ (scrapeByNames ["Ivan"] false
        (fun n => if n = "Ivan" then some [⟨"091 111", "ul", "grad", "ime"⟩] else none)
        (fun _ => ⟨0, [], none⟩) 10).launched
    ∧ (∃ ns, (scrapeByNames ["Ivan"] false
        (fun n => if n = "Ivan" then some [⟨"091 111", "ul", "grad", "ime"⟩] else none)
        (fun _ => ⟨0, [], none⟩) 10).σ "Ivan" = some ns
        ∧ ns.status = .completed ∧ ns.currentPage = ns.totalPages)
    ∧ (scrapeByNames ["Ivan"] false
        (fun n => if n = "Ivan" then some [⟨"091 111", "ul", "grad", "ime"⟩] else none)
        (fun _ => ⟨0, [], none⟩) 10).entries =
        (["Ivan"].flatMap fun n =>
          (getEntriesFromCache n
            (fun n => if n = "Ivan" then some [⟨"091 111", "ul", "grad", "ime"⟩] else none)).getD []) ++
          (((scrapeByNames ["Ivan"] false
            (fun n => if n = "Ivan" then some [⟨"091 111", "ul", "grad", "ime"⟩] else none)
            (fun _ => ⟨0, [], none⟩) 10).launched).map
            fun n => termEntries ((fun _ => (⟨0, [], none⟩ : SessionEnv)) n)).flatten
    ∧ List.Sublist [(⟨"091 111", "ul", "grad", "ime"⟩ : Entry)]
        (scrapeByNames ["Ivan"] false
          (fun n => if n = "Ivan" then some [⟨"091 111", "ul", "grad", "ime"⟩] else none)
          (fun _ => ⟨0, [], none⟩) 10).entries :=
  scrapeByNames_cache_hit ["Ivan"] "Ivan" [⟨"091 111", "ul", "grad", "ime"⟩]
    (fun n => if n = "Ivan" then some [⟨"091 111", "ul", "grad", "ime"⟩] else none)
    (fun _ => ⟨0, [], none⟩) 10 (by decide) (by decide)

/-- C3: a thrown error for one term in a batch never escapes: the orchestrator
still returns every other term's contribution unchanged, the failing term
contributes the empty list, and its status ends completed. -/
theorem scrapeByNames_error_isolated (names : List String) (dc : Bool)
    (cache : CacheMap) (env : String → SessionEnv) (B : Nat) (t : String) (k : Nat)
    (hf : (env t).fail = some k) (ht : t ∈ names) (hB : 0 < B) :
    (scrapeByNames names dc cache env B).entries =
      seedEntries names dc cache ++
        (((scrapeByNames names dc cache env B).launched).map
          fun n => if n = t then [] else termEntries (env n)).flatten
    ∧ ∃ ns, (scrapeByNames names dc cache env B).σ t = some ns
        ∧ ns.status = .completed := by
  constructor
  · rw [scrapeByNames_entries_eq, scrapeByNames_launched]
    congr 2
    apply List.map_congr_left
    intro n _
    by_cases hnt : n = t
    · subst hnt
      rw [if_pos rfl]
      unfold termEntries
      rw [hf]
    · rw [if_neg hnt]
  · by_cases hhit : cacheHit dc cache t = true
    · exact ⟨⟨10, 10, .completed⟩,
        scrapeByNames_σ_cache_hit names dc cache env B t ht hhit, rfl⟩
    · have hmem : t ∈ namesToProcess names dc cache :=
        List.mem_filter.mpr ⟨ht, by simp [Bool.not_eq_true] at hhit ⊢; exact hhit⟩
      have hmem2 : t ∈ (splitIntoBatches (namesToProcess names dc cache) B).flatten := by
        rw [splitIntoBatches_flatten _ _ hB]
        exact hmem
      show Completed (scrapeByNames names dc cache env B).σ t
      unfold scrapeByNames
      dsimp only
      exact foldBatches_completed_mem dc env _ _ t hmem2

theorem scrapeByNames_error_isolated_witness :
    (scrapeByNames ["Ana", "Iva"] false (fun _ => none)
        (fun n => if n = "Ana" then ⟨0, [], some 1⟩ else ⟨0, [⟨"0911", "", "", "Iva"⟩], none⟩)
        10).entries =
      seedEntries ["Ana", "Iva"] false (fun _ => none) ++
        (((scrapeByNames ["Ana", "Iva"] false (fun _ => none)
          (fun n => if n = "Ana" then ⟨0, [], some 1⟩ else ⟨0, [⟨"0911", "", "", "Iva"⟩], none⟩)
          10).launched).map
          fun n => if n = "Ana" then []
            else termEntries ((fun n => if n = "Ana" then (⟨0, [], some 1⟩ : SessionEnv)
              else ⟨0, [⟨"0911", "", "", "Iva"⟩], none⟩) n)).flatten
    ∧ ∃ ns, (scrapeByNames ["Ana", "Iva"] false (fun _ => none)
        (fun n => if n = "Ana" then ⟨0, [], some 1⟩ else ⟨0, [⟨"0911", "", "", "Iva"⟩], none⟩)
        10).σ "Ana" = some ns ∧ ns.status = .completed :=
  scrapeByNames_error_isolated ["Ana", "Iva"] false (fun _ => none)
    (fun n => if n = "Ana" then ⟨0, [], some 1⟩ else ⟨0, [⟨"0911", "", "", "Iva"⟩], none⟩)
    10 "Ana" 1 (by decide) (by decide) (by decide)

/-- C4: splitIntoBatches partitions the filtered name list into ordered
contiguous groups of the configured size with only the final group shorter
(25 terms at size 10 give groups of 10, 10, 5), and the orchestrator launches
exactly the cache-miss terms, batch after batch in order, its output
accumulating each term's contribution in that order after the cache seed. -/
theorem splitIntoBatches_spec (l : List String) (b : Nat) (hb : 0 < b) :
    (splitIntoBatches l b).flatten = l
    ∧ (∀ c ∈ splitIntoBatches l b, c.length ≤ b)
    ∧ (∀ c ∈ (splitIntoBatches l b).dropLast, c.length = b)
    ∧ (l.length = 25 → b = 10 → (splitIntoBatches l b).map List.length = [10, 10, 5])
    ∧ ∀ (names : List String) (dc : Bool) (cache : CacheMap)
        (env : String → SessionEnv),
        (scrapeByNames names dc cache env b).launched = namesToProcess names dc cache
        ∧ (scrapeByNames names dc cache env b).entries =
            seedEntries names dc cache ++
              ((namesToProcess names dc cache).map fun n => termEntries (env n)).flatten := by
  refine ⟨splitIntoBatches_flatten l b hb, splitIntoBatches_length_le l b hb,
    splitIntoBatches_dropLast l b hb, ?_, ?_⟩
  · intro h25 h10
    subst h10
    rw [splitIntoBatches_map_length, h25]
    decide
  · intro names dc cache env
    constructor
    · rw [scrapeByNames_launched, splitIntoBatches_flatten _ _ hb]
    · rw [scrapeByNames_entries_eq, splitIntoBatches_flatten _ _ hb]

theorem splitIntoBatches_spec_witness :
    (splitIntoBatches (List.replicate 25 "x") 10).map List.length = [10, 10, 5] :=
  (splitIntoBatches_spec (List.replicate 25 "x") 10 (by decide)).2.2.2.1 (by decide) rfl

/-- C5 as stated is false: a term whose first run yields no entries (here a
successful scrape returning the empty list) is not written to the cache, so a
second run with caching enabled launches a Search Session for it again. -/
theorem scrapeByNames_rerun_cex :
    (scrapeByNames ["Ana"] false
        (scrapeByNames ["Ana"] false (fun _ => none) (fun _ => ⟨0, [], none⟩) 10).cacheOut
        (fun _ => ⟨0, [], none⟩) 10).launched ≠ [] := by
  decide

/-- C5 amended: if after the first run every input term is present in the
cache (each term was already cached or yielded a non-empty entry list), the
second run launches zero Search Sessions and performs zero output-file writes,
leaving the output file identical. -/
theorem scrapeByNames_rerun_idempotent (names : List String) (cache : CacheMap)
    (env : String → SessionEnv) (B : Nat)
    (h : ∀ n ∈ names, (((scrapeByNames names false cache env B).cacheOut) n).isSome) :
    (scrapeByNames names false (scrapeByNames names false cache env B).cacheOut
        env B).launched = []
    ∧ (scrapeByNames names false (scrapeByNames names false cache env B).cacheOut
        env B).saves = [] := by
  have hntp : namesToProcess names false
      (scrapeByNames names false cache env B).cacheOut = [] := by
    apply List.filter_eq_nil_iff.mpr
    intro n hn
    have hs := h n hn
    simp [cacheHit, getEntriesFromCache, hs]
  constructor
  · rw [scrapeByNames_launched, hntp, splitIntoBatches_nil]
    rfl
  · exact scrapeByNames_saves_nil names false
      (scrapeByNames names false cache env B).cacheOut env B hntp

theorem scrapeByNames_rerun_idempotent_witness :
    (scrapeByNames ["Ana"] false
        (scrapeByNames ["Ana"] false (fun _ => some [⟨"0911", "", "", "Ana"⟩])
          (fun _ => ⟨0, [], none⟩) 10).cacheOut (fun _ => ⟨0, [], none⟩) 10).launched = []
    ∧ (scrapeByNames ["Ana"] false
        (scrapeByNames ["Ana"] false (fun _ => some [⟨"0911", "", "", "Ana"⟩])
          (fun _ => ⟨0, [], none⟩) 10).cacheOut (fun _ => ⟨0, [], none⟩) 10).saves = [] :=
  scrapeByNames_rerun_idempotent ["Ana"] (fun _ => some [⟨"0911", "", "", "Ana"⟩])
    (fun _ => ⟨0, [], none⟩) 10 (by decide)

/-- The progress-record invariant: the page cursor never exceeds the total and
the total is at least one. -/
def nsOK (p : NS) : Prop :=
  p.currentPage ≤ p.totalPages ∧ 1 ≤ p.totalPages

/-- Every record stored in a status map satisfies the invariant. -/
def mapOK (σ : StatusMap) : Prop :=
  ∀ m ns, σ m = some ns → nsOK ns

/-- Every published record in a trace satisfies the invariant. -/
def traceOK (tr : List NS) : Prop :=
  ∀ p ∈ tr, nsOK p

theorem nsOK_mk (cp tp : Nat) (st : NameState) (h1 : cp ≤ tp) (h2 : 1 ≤ tp) :
    nsOK ⟨cp, tp, st⟩ := ⟨h1, h2⟩

theorem nsOK_init : nsOK ⟨0, 10, .pending⟩ :=
  nsOK_mk _ _ _ (by omega) (by omega)

theorem mapOK_setStatus (σ : StatusMap) (n : String) (v : NS) (h : mapOK σ)
    (hv : nsOK v) : mapOK (setStatus σ n v) := by
  intro m ns hm
  unfold setStatus at hm
  by_cases hmn : m = n
  · rw [if_pos hmn] at hm
    cases Option.some.inj hm
    exact hv
  · rw [if_neg hmn] at hm
    exact h m ns hm

theorem sessionPubs_ok (tp0 lc : Nat) (h : 1 ≤ tp0) :
    ∀ p ∈ sessionPubs tp0 lc, nsOK p := by
  intro p hp
  unfold sessionPubs at hp
  rcases List.mem_cons.mp hp with rfl | hp
  · exact ⟨h, h⟩
  rw [List.mem_append, List.mem_append] at hp
  rcases hp with (hp | hp) | hp
  · by_cases hlc : lc = 0
    · rw [if_pos hlc] at hp
      simp at hp
    · rw [if_neg hlc] at hp
      rw [List.mem_singleton] at hp
      subst hp
      exact nsOK_mk _ _ _ (by omega) (by omega)
  · rw [List.mem_map] at hp
    obtain ⟨i, hi, rfl⟩ := hp
    rw [List.mem_range] at hi
    have hlc : lc ≠ 0 := by omega
    unfold sessionTotalPages
    rw [if_neg hlc]
    exact nsOK_mk _ _ _ (by omega) (by omega)
  · rw [List.mem_singleton] at hp
    subst hp
    unfold sessionLastPage sessionTotalPages
    by_cases hlc : lc = 0
    · rw [if_pos hlc, if_pos hlc]
      exact ⟨h, h⟩
    · rw [if_neg hlc, if_neg hlc]
      exact nsOK_mk _ _ _ (by omega) (by omega)

theorem sessionPubs_after_discovery (tp0 lc : Nat) (hlc : 0 < lc) :
    ∀ p ∈ (sessionPubs tp0 lc).drop 1, p.totalPages = lc + 1 := by
  intro p hp
  unfold sessionPubs at hp
  have hd : ∀ (x : NS) (xs : List NS), (x :: xs).drop 1 = xs := fun _ _ => rfl
  rw [hd] at hp
  have hlc0 : lc ≠ 0 := by omega
  rw [List.mem_append, List.mem_append] at hp
  rcases hp with (hp | hp) | hp
  · rw [if_neg hlc0, List.mem_singleton] at hp
    subst hp
    rfl
  · rw [List.mem_map] at hp
    obtain ⟨i, _, rfl⟩ := hp
    unfold sessionTotalPages
    rw [if_neg hlc0]
  · rw [List.mem_singleton] at hp
    subst hp
    unfold sessionTotalPages
    rw [if_neg hlc0]

theorem runSession_ok (n : String) (e : SessionEnv) (σ : StatusMap) (h : mapOK σ) :
    mapOK (runSession n e σ).σ ∧ ∀ p ∈ (runSession n e σ).pubs, nsOK p := by
  have hns0 : nsOK ((σ n).getD ⟨0, 10, .pending⟩) := by
    cases hσ : σ n with
    | none => exact nsOK_init
    | some ns => exact h n ns hσ
  have hfull := sessionPubs_ok ((σ n).getD ⟨0, 10, .pending⟩).totalPages e.linkCount hns0.2
  unfold runSession
  cases hf : e.fail with
  | none =>
      dsimp only
      refine ⟨mapOK_setStatus _ _ _ h ?_, hfull⟩
      unfold sessionLastPage sessionTotalPages
      by_cases hlc : e.linkCount = 0
      · rw [if_pos hlc, if_pos hlc]
        exact ⟨hns0.2, hns0.2⟩
      · rw [if_neg hlc, if_neg hlc]
        exact nsOK_mk _ _ _ (by omega) (by omega)
  | some k =>
      dsimp only
      constructor
      · apply mapOK_setStatus _ _ _ h
        cases hl : ((sessionPubs ((σ n).getD ⟨0, 10, .pending⟩).totalPages
            e.linkCount).take (max 1 k)).getLast? with
        | none => exact hns0
        | some q =>
            exact hfull q (List.mem_of_mem_take (List.mem_of_getLast?_eq_some hl))
      · intro p hp
        exact hfull p (List.mem_of_mem_take hp)

/-- The state components the progress invariant tracks. -/
def stateOK (s : OrchState) : Prop :=
  mapOK s.σ ∧ traceOK s.trace

theorem runTerm_stateOK (dc : Bool) (env : String → SessionEnv) (s : OrchState)
    (n : String) (h : stateOK s) : stateOK (runTerm dc env s n).1 := by
  obtain ⟨hσ, htr⟩ := h
  have hrs := runSession_ok n (env n) s.σ hσ
  unfold runTerm
  dsimp only
  cases hf : (env n).fail with
  | none =>
      rw [runSession_result_none n (env n) s.σ hf]
      refine ⟨hrs.1, ?_⟩
      intro p hp
      rcases List.mem_append.mp hp with hp | hp
      · exact htr p hp
      · exact hrs.2 p hp
  | some k =>
      rw [runSession_result_some n (env n) s.σ k hf]
      cases hv : (runSession n (env n) s.σ).σ n with
      | some ns =>
          dsimp only
          have hns : nsOK ns := hrs.1 n ns hv
          constructor
          · exact mapOK_setStatus _ _ _ hrs.1 ⟨hns.1, hns.2⟩
          · intro p hp
            rcases List.mem_append.mp hp with hp | hp
            · rcases List.mem_append.mp hp with hp | hp
              · exact htr p hp
              · exact hrs.2 p hp
            · rw [List.mem_singleton] at hp
              subst hp
              exact ⟨hns.1, hns.2⟩
      | none =>
          refine ⟨hrs.1, ?_⟩
          intro p hp
          rcases List.mem_append.mp hp with hp | hp
          · exact htr p hp
          · exact hrs.2 p hp

theorem runTermsAcc_stateOK (dc : Bool) (env : String → SessionEnv) :
    ∀ (l : List String) (s : OrchState), stateOK s →
      stateOK (runTermsAcc dc env s l).1 := by
  intro l
  induction l with
  | nil => intro s h; exact h
  | cons n rest ih =>
      intro s h
      exact ih _ (runTerm_stateOK dc env s n h)

theorem runBatch_stateOK (dc : Bool) (env : String → SessionEnv) (s : OrchState)
    (batch : List String) (h : stateOK s) : stateOK (runBatch dc env s batch) :=
  runTermsAcc_stateOK dc env batch s h

theorem foldBatches_stateOK (dc : Bool) (env : String → SessionEnv) :
    ∀ (batches : List (List String)) (s : OrchState), stateOK s →
      stateOK (batches.foldl (runBatch dc env) s) := by
  intro batches
  induction batches with
  | nil => intro s h; exact h
  | cons b bs ih =>
      intro s h
      exact ih _ (runBatch_stateOK dc env s b h)

/-- `stateOK` for the paired status-map/trace state of the cache filter. -/
def pairOK (p : StatusMap × List NS) : Prop :=
  mapOK p.1 ∧ traceOK p.2

theorem markCached_pairOK (dc : Bool) (cache : CacheMap) (p : StatusMap × List NS)
    (n : String) (h : pairOK p) : pairOK (markCached dc cache p n) := by
  unfold markCached
  by_cases hh : cacheHit dc cache n
  · simp only [hh, if_true]
    cases hσ : p.1 n with
    | none => exact h
    | some ns =>
        dsimp only
        have hns := h.1 n ns hσ
        constructor
        · exact mapOK_setStatus _ _ _ h.1 ⟨le_rfl, hns.2⟩
        · intro q hq
          rcases List.mem_append.mp hq with hq | hq
          · exact h.2 q hq
          · rw [List.mem_singleton] at hq
            subst hq
            exact ⟨le_rfl, hns.2⟩
  · simp only [hh, if_false]
    exact h

theorem foldl_markCached_pairOK (dc : Bool) (cache : CacheMap) :
    ∀ (names : List String) (p : StatusMap × List NS), pairOK p →
      pairOK (names.foldl (markCached dc cache) p) := by
  intro names
  induction names with
  | nil => intro p h; exact h
  | cons a rest ih =>
      intro p h
      exact ih _ (markCached_pairOK dc cache p a h)

/-- C10: at every point where the session or the orchestrator publishes a
progress record, the record satisfies 0 ≤ currentPage ≤ totalPages with
totalPages ≥ 1; moreover, once pagination is discovered (linkCount > 0) every
later session publish carries totalPages = linkCount + 1, bounding the
per-page cursor i + 2 by linkCount + 1. -/
theorem progress_bounds :
    (∀ (names : List String) (dc : Bool) (cache : CacheMap)
        (env : String → SessionEnv) (B : Nat),
      ∀ p ∈ (scrapeByNames names dc cache env B).trace,
        p.currentPage ≤ p.totalPages ∧ 1 ≤ p.totalPages)
    ∧ ∀ (tp0 lc : Nat), 0 < lc →
        ∀ p ∈ (sessionPubs tp0 lc).drop 1, p.totalPages = lc + 1 := by
  constructor
  · intro names dc cache env B p hp
    have hpair : pairOK (names.foldl (markCached dc cache)
        (initStatus names, names.map fun _ => (⟨0, 10, .pending⟩ : NS))) := by
      apply foldl_markCached_pairOK
      constructor
      · dsimp only
        intro m ns hm
        rw [initStatus_apply] at hm
        by_cases hmem : m ∈ names
        · rw [if_pos hmem] at hm
          cases Option.some.inj hm
          exact nsOK_init
        · rw [if_neg hmem] at hm
          exact Option.noConfusion hm
      · dsimp only
        intro q hq
        rw [List.mem_map] at hq
        obtain ⟨_, _, rfl⟩ := hq
        exact nsOK_init
    have hall : stateOK ((splitIntoBatches (namesToProcess names dc cache) B).foldl
        (runBatch dc env)
        { σ := (names.foldl (markCached dc cache)
            (initStatus names, names.map fun _ => (⟨0, 10, .pending⟩ : NS))).1
          cacheM := cache
          trace := (names.foldl (markCached dc cache)
            (initStatus names, names.map fun _ => (⟨0, 10, .pending⟩ : NS))).2
          entries := seedEntries names dc cache
          saves := [] }) :=
      foldBatches_stateOK dc env _ _ ⟨hpair.1, hpair.2⟩
    exact hall.2 p hp
  · exact sessionPubs_after_discovery

theorem progress_bounds_witness :
    (⟨0, 10, .pending⟩ : NS).currentPage ≤ (⟨0, 10, .pending⟩ : NS).totalPages
    ∧ 1 ≤ (⟨0, 10, .pending⟩ : NS).totalPages :=
  progress_bounds.1 ["a"] false (fun _ => none) (fun _ => ⟨0, [], none⟩) 1
    ⟨0, 10, .pending⟩ (by decide)

end Imenik
